import Mathlib

/-!
Shallow embedding of the micrograd-rust autodiff core (src/lib.rs).

Modelling conventions:
* `f64` scalars are modelled as real numbers `ℝ`; `f64::exp` as `Real.exp`,
  `f64::powf` as `Real.rpow`, `f64::max` as `max`.
* `ValueId` is modelled as `ℕ`.  The Rust code draws ids from a global
  atomic counter; here every node-allocating operation takes the fresh
  id(s) as explicit parameters, and the build process that threads the
  counter is captured by the `Trace` relation below.
* `Rc<Value_>` sharing is modelled by structural subterms: two occurrences
  of the same Rust node appear as two structurally equal subterms carrying
  the same id.  The fresh-id discipline of the counter is exactly the
  `consistent` property proved from `Trace`.
* The two panic sites inside `Value::backward` (the unchecked
  `grad_store.0.get(&v.id).unwrap()` and the `unreachable!()` arms for
  `Sub`/`Div`) are modelled by `Option`: `none` means the Rust code panics.
-/

namespace Micrograd

/-- Rust `enum BinaryOp { Add, Sub, Mul, Div, Pow }` from src/lib.rs. -/
inductive BinaryOp where
  | Add
  | Sub
  | Mul
  | Div
  | Pow
deriving DecidableEq, Repr

/-- Rust `enum UnaryOp { Tanh, Exp, Relu }` from src/lib.rs. -/
inductive UnaryOp where
  | Tanh
  | Exp
  | Relu
deriving DecidableEq, Repr

mutual
/-- Rust `enum Op { Binary(Value, Value, BinaryOp), Unary(Value, UnaryOp) }`. -/
inductive Op where
  | Binary : Value → Value → BinaryOp → Op
  | Unary : Value → UnaryOp → Op

/-- Rust `struct Value_ { data: f64, op: Option<Op>, label: String, id: ValueId }`
wrapped in `Rc` as `struct Value(Rc<Value_>)`. -/
inductive Value where
  | mk : ℝ → Option Op → String → ℕ → Value
end

/-- Field accessor for `data`. -/
def Value.data : Value → ℝ
  | .mk d _ _ _ => d

/-- Field accessor for `op`. -/
def Value.op : Value → Option Op
  | .mk _ o _ _ => o

/-- Field accessor for `label`. -/
def Value.label : Value → String
  | .mk _ _ l _ => l

/-- Field accessor for `id`. -/
def Value.id : Value → ℕ
  | .mk _ _ _ i => i

/-- Rust `impl From<f64> for Value`: a leaf with empty label.  The Rust code draws
the id from the global counter; here it is the explicit argument `i`. -/
def Value.fromFloat (v : ℝ) (i : ℕ) : Value :=
  .mk v none "" i

/-- Rust `Value::new(data)`. -/
def Value.new (data : ℝ) (i : ℕ) : Value :=
  .mk data none "" i

/-- Rust `Value::new_with_label(data, label)`. -/
def Value.newWithLabel (data : ℝ) (label : String) (i : ℕ) : Value :=
  .mk data none label i

/-- Rust `Value::tanh`: data `((x*2).exp() - 1) / ((x*2).exp() + 1)`, provenance
`Unary(self, Tanh)`. -/
noncomputable def Value.tanh (self : Value) (i : ℕ) : Value :=
  .mk ((Real.exp (self.data * 2) - 1) / (Real.exp (self.data * 2) + 1))
    (some (Op.Unary self UnaryOp.Tanh)) "" i

/-- Rust `Value::add`: data `self.data + other.data`, provenance
`Binary(self, other, Add)`. -/
def Value.add (self other : Value) (i : ℕ) : Value :=
  .mk (self.data + other.data) (some (Op.Binary self other BinaryOp.Add)) "" i

/-- Rust `Value::mul`: data `self.data * other.data`, provenance
`Binary(self, other, Mul)`. -/
def Value.mul (self other : Value) (i : ℕ) : Value :=
  .mk (self.data * other.data) (some (Op.Binary self other BinaryOp.Mul)) "" i

/-- Rust `Value::exp`: data `self.data.exp()`, provenance `Unary(self, Exp)`. -/
noncomputable def Value.exp (self : Value) (i : ℕ) : Value :=
  .mk (Real.exp self.data) (some (Op.Unary self UnaryOp.Exp)) "" i

/-- Rust `Value::pow`: data `self.data.powf(other.data)`, provenance
`Binary(self, other, Pow)`. -/
noncomputable def Value.pow (self other : Value) (i : ℕ) : Value :=
  .mk (self.data ^ other.data) (some (Op.Binary self other BinaryOp.Pow)) "" i

/-- Rust `Value::sqrt`: literally `self.mul(&self)` in the source. -/
def Value.sqrt (self : Value) (i : ℕ) : Value :=
  self.mul self i

/-- Rust `Value::neg`: `self.mul(&Value::from(-1.0))`.  `i1` is the id drawn for
`Value::from(-1.0)`, `i2` the id drawn for the `mul` node. -/
def Value.neg (self : Value) (i1 i2 : ℕ) : Value :=
  self.mul (Value.fromFloat (-1) i1) i2

/-- Rust `Value::div`: `self.mul(&other.pow(&Value::from(-1.0)))`.  `i1` is the id
for `Value::from(-1.0)`, `i2` for the `pow` node, `i3` for the `mul` node. -/
noncomputable def Value.div (self other : Value) (i1 i2 i3 : ℕ) : Value :=
  self.mul (other.pow (Value.fromFloat (-1) i1) i2) i3

/-- Rust `Value::sub`: `self.add(&other.neg())`.  `i1`/`i2` are the ids drawn
inside `other.neg()`, `i3` the id for the `add` node. -/
def Value.sub (self other : Value) (i1 i2 i3 : ℕ) : Value :=
  self.add (other.neg i1 i2) i3

/-- Rust `Value::relu` as written in the source: data `self.data.max(0.0)`,
label `"ReLU"`, and — crucially — `op: None` (no provenance is recorded). -/
noncomputable def Value.relu (self : Value) (i : ℕ) : Value :=
  .mk (max self.data 0) none "ReLU" i

/-- Rust `struct GradStore(HashMap<ValueId, f64>)`, as a partial map: `none`
means the key is absent from the hash map. -/
def GradStore := ℕ → Option ℝ

/-- Rust `GradStore::new()` / `HashMap::new()`: the empty map. -/
def GradStore.new : GradStore := fun _ => none

/-- Rust `HashMap::insert`. -/
def GradStore.insert (s : GradStore) (i : ℕ) (v : ℝ) : GradStore :=
  fun k => if k = i then some v else s k

/-- The combined effect of `let g = grad_store.or_insert(id); *g += delta`:
insert `0.0` if absent, then add `delta` to the entry. -/
noncomputable def GradStore.orInsertAdd (s : GradStore) (i : ℕ) (delta : ℝ) :
    GradStore :=
  s.insert i ((s i).getD 0 + delta)

/-- Rust `GradientStore.get(node_identity) -> float`.
Modelled from the spec: src/lib.rs exposes no `get` method on `GradStore`
(callers reach into the raw hash map); the spec (§6) requires a lookup that
returns `0.0` if the node never received a contribution. -/
def GradStore.get (s : GradStore) (i : ℕ) : ℝ :=
  (s i).getD 0

/-- The direct operands of a node, read off its provenance. -/
def Value.operands : Value → List Value
  | .mk _ none _ _ => []
  | .mk _ (some (Op.Binary lhs rhs _)) _ _ => [lhs, rhs]
  | .mk _ (some (Op.Unary x _)) _ _ => [x]

/-- All nodes reachable from a node by following provenance edges,
the node itself included (with multiplicity, before id-deduplication). -/
def Value.subterms : Value → List Value
  | .mk d none l i => [.mk d none l i]
  | .mk d (some (Op.Binary lhs rhs b)) l i =>
      .mk d (some (Op.Binary lhs rhs b)) l i :: (lhs.subterms ++ rhs.subterms)
  | .mk d (some (Op.Unary x u)) l i =>
      .mk d (some (Op.Unary x u)) l i :: x.subterms

/-- Rust `fn build_topo(value, visited, topo)` from `Value::backward`: depth-first
post-order traversal with a visited set keyed by id.  The state is the pair
`(visited, topo)`; `HashMap<ValueId, bool>` (every stored flag is `true`, only
`contains_key` is consulted) is modelled as the list of inserted keys. -/
def buildTopo : Value → List ℕ × List Value → List ℕ × List Value
  | .mk d o l i, (visited, topo) =>
    if i ∈ visited then (visited, topo)
    else
      let st :=
        match o with
        | some (Op.Binary lhs rhs _) =>
            buildTopo rhs (buildTopo lhs (i :: visited, topo))
        | some (Op.Unary x _) => buildTopo x (i :: visited, topo)
        | none => (i :: visited, topo)
      (st.1, st.2 ++ [.mk d o l i])

/-- Structural size of a node tree, used for termination-style arguments. -/
def Value.size : Value → ℕ
  | .mk _ none _ _ => 1
  | .mk _ (some (Op.Binary lhs rhs _)) _ _ => lhs.size + rhs.size + 1
  | .mk _ (some (Op.Unary x _)) _ _ => x.size + 1

/-- Structural induction over the three provenance shapes of a node. -/
theorem Value.inductionOn (P : Value → Prop)
    (hleaf : ∀ d l i, P (.mk d none l i))
    (hbin : ∀ d lhs rhs b l i, P lhs → P rhs →
      P (.mk d (some (Op.Binary lhs rhs b)) l i))
    (hun : ∀ d x u l i, P x → P (.mk d (some (Op.Unary x u)) l i)) :
    ∀ v, P v
  | .mk d none l i => hleaf d l i
  | .mk d (some (Op.Binary lhs rhs b)) l i =>
      hbin d lhs rhs b l i (Value.inductionOn P hleaf hbin hun lhs)
        (Value.inductionOn P hleaf hbin hun rhs)
  | .mk d (some (Op.Unary x u)) l i =>
      hun d x u l i (Value.inductionOn P hleaf hbin hun x)

theorem Value.size_pos (v : Value) : 0 < v.size := by
  induction v using Value.inductionOn <;> simp [Value.size]

theorem Value.size_lt_of_operand {x v : Value} (h : x ∈ v.operands) :
    x.size < v.size := by
  induction v using Value.inductionOn with
  | hleaf d l i => simp [Value.operands] at h
  | hbin d lhs rhs b l i ih1 ih2 =>
    simp only [Value.operands, List.mem_cons, List.mem_singleton,
      List.not_mem_nil, or_false] at h
    rcases h with h | h <;> subst h <;> simp [Value.size] <;> omega
  | hun d y u l i ih =>
    simp only [Value.operands, List.mem_singleton] at h
    subst h
    simp [Value.size]

theorem Value.self_mem_subterms (v : Value) : v ∈ v.subterms := by
  induction v using Value.inductionOn <;> simp [Value.subterms]

theorem Value.size_le_of_mem_subterms {s v : Value} (h : s ∈ v.subterms) :
    s.size ≤ v.size := by
  induction v using Value.inductionOn with
  | hleaf d l i =>
    simp only [Value.subterms, List.mem_singleton] at h
    subst h; exact le_rfl
  | hbin d lhs rhs b l i ih1 ih2 =>
    simp only [Value.subterms, List.mem_cons, List.mem_append] at h
    rcases h with h | h | h
    · subst h; exact le_rfl
    · exact (ih1 h).trans (by simp [Value.size]; omega)
    · exact (ih2 h).trans (by simp [Value.size]; omega)
  | hun d x u l i ih =>
    simp only [Value.subterms, List.mem_cons] at h
    rcases h with h | h
    · subst h; exact le_rfl
    · exact (ih h).trans (by simp [Value.size])

theorem Value.mem_subterms_of_operand {x v : Value} (h : x ∈ v.operands) :
    x ∈ v.subterms := by
  induction v using Value.inductionOn with
  | hleaf d l i => simp [Value.operands] at h
  | hbin d lhs rhs b l i ih1 ih2 =>
    simp only [Value.operands, List.mem_cons, List.mem_singleton,
      List.not_mem_nil, or_false] at h
    rcases h with h | h <;> subst h <;>
      simp [Value.subterms, Value.self_mem_subterms]
  | hun d y u l i ih =>
    simp only [Value.operands, List.mem_singleton] at h
    subst h
    simp [Value.subterms, Value.self_mem_subterms]

theorem Value.subterms_subset_of_operand {x v : Value} (hx : x ∈ v.operands) :
    ∀ s ∈ x.subterms, s ∈ v.subterms := by
  intro s hs
  induction v using Value.inductionOn with
  | hleaf d l i => simp [Value.operands] at hx
  | hbin d lhs rhs b l i ih1 ih2 =>
    simp only [Value.operands, List.mem_cons, List.mem_singleton,
      List.not_mem_nil, or_false] at hx
    rcases hx with h | h <;> subst h <;> simp [Value.subterms] <;> tauto
  | hun d y u l i ih =>
    simp only [Value.operands, List.mem_singleton] at hx
    subst hx
    simp [Value.subterms]
    tauto

theorem Value.mem_subterms_trans {s t v : Value} (hs : s ∈ t.subterms)
    (ht : t ∈ v.subterms) : s ∈ v.subterms := by
  induction v using Value.inductionOn with
  | hleaf d l i =>
    simp only [Value.subterms, List.mem_singleton] at ht
    subst ht
    simp only [Value.subterms, List.mem_singleton] at hs ⊢
    exact hs
  | hbin d lhs rhs b l i ih1 ih2 =>
    simp only [Value.subterms, List.mem_cons, List.mem_append] at ht ⊢
    rcases ht with h | h | h
    · subst h
      simpa [Value.subterms] using hs
    · exact Or.inr (Or.inl (ih1 h))
    · exact Or.inr (Or.inr (ih2 h))
  | hun d x u l i ih =>
    simp only [Value.subterms, List.mem_cons] at ht ⊢
    rcases ht with h | h
    · subst h
      simpa [Value.subterms] using hs
    · exact Or.inr (ih h)

/-- Every subterm other than the root itself is an operand of some subterm. -/
theorem Value.exists_parent {s v : Value} (hs : s ∈ v.subterms) :
    s = v ∨ ∃ p ∈ v.subterms, s ∈ p.operands := by
  induction v using Value.inductionOn with
  | hleaf d l i =>
    simp only [Value.subterms, List.mem_singleton] at hs
    exact Or.inl hs
  | hbin d lhs rhs b l i ih1 ih2 =>
    simp only [Value.subterms, List.mem_cons, List.mem_append] at hs
    rcases hs with h | h | h
    · exact Or.inl h
    · rcases ih1 h with h1 | ⟨p, hp, hsp⟩
      · subst h1
        refine Or.inr ⟨_, Value.self_mem_subterms _, ?_⟩
        simp [Value.operands]
      · exact Or.inr ⟨p, by simp [Value.subterms]; tauto, hsp⟩
    · rcases ih2 h with h1 | ⟨p, hp, hsp⟩
      · subst h1
        refine Or.inr ⟨_, Value.self_mem_subterms _, ?_⟩
        simp [Value.operands]
      · exact Or.inr ⟨p, by simp [Value.subterms]; tauto, hsp⟩
  | hun d x u l i ih =>
    simp only [Value.subterms, List.mem_cons] at hs
    rcases hs with h | h
    · exact Or.inl h
    · rcases ih h with h1 | ⟨p, hp, hsp⟩
      · subst h1
        refine Or.inr ⟨_, Value.self_mem_subterms _, ?_⟩
        simp [Value.operands]
      · exact Or.inr ⟨p, by simp [Value.subterms]; tauto, hsp⟩

/-- A node is never an operand of itself, nor a subterm of one of its
operands. -/
theorem Value.not_mem_subterms_of_operand {x v : Value} (hx : x ∈ v.operands) :
    v ∉ x.subterms := by
  intro hv
  have h1 := Value.size_le_of_mem_subterms hv
  have h2 := Value.size_lt_of_operand hx
  omega

/-- Well-formedness of a node tree: the id determines the node.  This is the
shape in which the global fresh-id counter of `ValueId::new` manifests on a
single tree: two subterm occurrences with the same id are the same node. -/
def Value.WF (R : Value) : Prop :=
  ∀ s ∈ R.subterms, ∀ t ∈ R.subterms, s.id = t.id → s = t

/-- A list of nodes in which every node's operands occur at strictly earlier
positions (phrased via splits of the list). -/
def SubClosed (topo : List Value) : Prop :=
  ∀ t1 v t2, topo = t1 ++ v :: t2 → ∀ x ∈ v.operands, x ∈ t1

theorem subClosed_nil : SubClosed [] := by
  intro t1 v t2 h
  simp at h

theorem SubClosed.push {L : List Value} {v : Value} (hL : SubClosed L)
    (hops : ∀ x ∈ v.operands, x ∈ L) : SubClosed (L ++ [v]) := by
  intro t1 w t2 hsplit x hx
  rcases List.eq_nil_or_concat t2 with h2 | ⟨t2p, a, h2⟩
  · subst h2
    have hlen : L.length = t1.length := by
      have := congrArg List.length hsplit
      simp at this
      omega
    have := List.append_inj hsplit hlen
    obtain ⟨hL1, hv⟩ := this
    have hv2 : v = w := by simpa using hv
    rw [← hL1]
    rw [← hv2] at hx
    exact hops x hx
  · subst h2
    have hsplit2 : L ++ [v] = (t1 ++ w :: t2p) ++ [a] := by
      simpa using hsplit
    have hlen : L.length = (t1 ++ w :: t2p).length := by
      have := congrArg List.length hsplit2
      simp at this
      simp
      omega
    obtain ⟨hL1, _⟩ := List.append_inj hsplit2 hlen
    exact hL t1 w t2p hL1 x hx

theorem SubClosed.subterms_mem {L : List Value} (hL : SubClosed L) :
    ∀ v, v ∈ L → ∀ s ∈ v.subterms, s ∈ L := by
  intro v
  induction v using Value.inductionOn with
  | hleaf d lab i =>
    intro hv s hs
    simp only [Value.subterms, List.mem_singleton] at hs
    subst hs; exact hv
  | hbin d lhs rhs b lab i ih1 ih2 =>
    intro hv s hs
    obtain ⟨t1, t2, hsplit⟩ := List.append_of_mem hv
    have hops := hL t1 _ t2 hsplit
    have hlhs : lhs ∈ L := by
      have := hops lhs (by simp [Value.operands])
      exact hsplit ▸ (by simp [this])
    have hrhs : rhs ∈ L := by
      have := hops rhs (by simp [Value.operands])
      exact hsplit ▸ (by simp [this])
    simp only [Value.subterms, List.mem_cons, List.mem_append] at hs
    rcases hs with h | h | h
    · subst h; exact hv
    · exact ih1 hlhs s h
    · exact ih2 hrhs s h
  | hun d x u lab i ih =>
    intro hv s hs
    obtain ⟨t1, t2, hsplit⟩ := List.append_of_mem hv
    have hops := hL t1 _ t2 hsplit
    have hx : x ∈ L := by
      have := hops x (by simp [Value.operands])
      exact hsplit ▸ (by simp [this])
    simp only [Value.subterms, List.mem_cons] at hs
    rcases hs with h | h
    · subst h; exact hv
    · exact ih hx s h

/-- Unfolding of `buildTopo` when the node was already visited. -/
theorem buildTopo_visited {d : ℝ} {o : Option Op} {l : String} {i : ℕ}
    {visited : List ℕ} {topo : List Value} (h : i ∈ visited) :
    buildTopo (.mk d o l i) (visited, topo) = (visited, topo) := by
  rw [buildTopo.eq_def]
  simp [h]

/-- Unfolding of `buildTopo` on an unvisited leaf. -/
theorem buildTopo_leaf {d : ℝ} {l : String} {i : ℕ}
    {visited : List ℕ} {topo : List Value} (h : i ∉ visited) :
    buildTopo (.mk d none l i) (visited, topo) =
      (i :: visited, topo ++ [.mk d none l i]) := by
  rw [buildTopo.eq_def]
  simp [h]

/-- Unfolding of `buildTopo` on an unvisited binary node. -/
theorem buildTopo_bin {d : ℝ} {lhs rhs : Value} {b : BinaryOp} {l : String}
    {i : ℕ} {visited : List ℕ} {topo : List Value} (h : i ∉ visited) :
    buildTopo (.mk d (some (Op.Binary lhs rhs b)) l i) (visited, topo) =
      ((buildTopo rhs (buildTopo lhs (i :: visited, topo))).1,
       (buildTopo rhs (buildTopo lhs (i :: visited, topo))).2 ++
         [.mk d (some (Op.Binary lhs rhs b)) l i]) := by
  rw [buildTopo.eq_def]
  simp [h]

/-- Unfolding of `buildTopo` on an unvisited unary node. -/
theorem buildTopo_un {d : ℝ} {x : Value} {u : UnaryOp} {l : String}
    {i : ℕ} {visited : List ℕ} {topo : List Value} (h : i ∉ visited) :
    buildTopo (.mk d (some (Op.Unary x u)) l i) (visited, topo) =
      ((buildTopo x (i :: visited, topo)).1,
       (buildTopo x (i :: visited, topo)).2 ++
         [.mk d (some (Op.Unary x u)) l i]) := by
  rw [buildTopo.eq_def]
  simp [h]

/-- Invariant carried by the `(visited, topo)` state of the DFS. -/
def TopoInv (R : Value) (visited : List ℕ) (topo : List Value) : Prop :=
  (∀ v ∈ topo, v.id ∈ visited) ∧ (topo.map Value.id).Nodup ∧
    (∀ v ∈ topo, v ∈ R.subterms) ∧ SubClosed topo

/-- Ids in the visited set that have not been emitted to `topo` yet belong to
DFS ancestors of the current node, hence never occur below it. -/
def PendingOK (value : Value) (visited : List ℕ) (topo : List Value) : Prop :=
  ∀ i ∈ visited, i ∈ topo.map Value.id ∨ ∀ s ∈ value.subterms, s.id ≠ i

/-- Full postcondition of one `buildTopo` call. -/
def TopoSpec (R value : Value) (visited : List ℕ) (topo : List Value) : Prop :=
  ∃ newPart,
    (buildTopo value (visited, topo)).2 = topo ++ newPart ∧
    (∀ j, j ∈ (buildTopo value (visited, topo)).1 ↔
      j ∈ visited ∨ j ∈ newPart.map Value.id) ∧
    TopoInv R (buildTopo value (visited, topo)).1 (topo ++ newPart) ∧
    (∀ s ∈ value.subterms, s.id ∈ (buildTopo value (visited, topo)).1) ∧
    (∀ v ∈ newPart, v ∈ value.subterms) ∧
    (newPart = [] ∨ ∃ mid, newPart = mid ++ [value])

/-- A well-formed tree recovers a node from its id within any sublist of the
tree's subterms. -/
theorem mem_of_id_mem {R j : Value} (hWF : Value.WF R) (hj : j ∈ R.subterms)
    {L : List Value} (hL : ∀ v ∈ L, v ∈ R.subterms)
    (h : j.id ∈ L.map Value.id) : j ∈ L := by
  obtain ⟨t, htL, hid⟩ := List.mem_map.mp h
  have ht : t = j := hWF t (hL t htL) j hj hid
  subst ht
  exact htL

/-- No node strictly below an operand of `value` carries the id of `value`. -/
theorem operand_subterm_id_ne {R value x : Value} (hWF : Value.WF R)
    (hvR : value ∈ R.subterms) (hx : x ∈ value.operands) :
    ∀ s ∈ x.subterms, s.id ≠ value.id := by
  intro s hs heq
  have hsR : s ∈ R.subterms :=
    Value.mem_subterms_trans
      (Value.mem_subterms_trans hs (Value.mem_subterms_of_operand hx)) hvR
  have hsv : s = value := hWF s hsR value hvR heq
  subst hsv
  have hlt := Value.size_lt_of_operand hx
  have hle := Value.size_le_of_mem_subterms hs
  omega

/-- Visited-case of the DFS specification: the node was emitted on an earlier
visit, so the call is a no-op and the whole subtree is already covered. -/
theorem topoSpec_of_visited {R value : Value} (hWF : Value.WF R)
    (hvR : value ∈ R.subterms) {visited : List ℕ} {topo : List Value}
    (hpend : PendingOK value visited topo) (hinv : TopoInv R visited topo)
    (hi : value.id ∈ visited)
    (heq : buildTopo value (visited, topo) = (visited, topo)) :
    TopoSpec R value visited topo := by
  obtain ⟨htv, hnd, hsub, hcl⟩ := hinv
  have hmem : value ∈ topo := by
    rcases hpend value.id hi with h | h
    · exact mem_of_id_mem hWF hvR hsub h
    · exact absurd rfl (h value (Value.self_mem_subterms value))
  refine ⟨[], ?_, ?_, ?_, ?_, ?_, Or.inl rfl⟩
  · simp [heq]
  · simp [heq]
  · rw [heq]
    simp only [List.append_nil]
    exact ⟨htv, hnd, hsub, hcl⟩
  · intro s hs
    rw [heq]
    exact htv s (hcl.subterms_mem value hmem s hs)
  · simp

theorem nodup_append_singleton {α : Type} {l : List α} {a : α} (h : l.Nodup)
    (ha : a ∉ l) : (l ++ [a]).Nodup := by
  simp [List.nodup_append, h, ha]

theorem not_mem_map_id {topo : List Value} {visited : List ℕ} {i : ℕ}
    (htv : ∀ v ∈ topo, v.id ∈ visited) (hi : i ∉ visited) :
    i ∉ topo.map Value.id := by
  intro hmem
  obtain ⟨t, ht, htid⟩ := List.mem_map.mp hmem
  exact hi (htid ▸ htv t ht)

/-- Main specification of the DFS topological sort `build_topo`. -/
theorem buildTopo_spec {R : Value} (hWF : Value.WF R) :
    ∀ value, value ∈ R.subterms → ∀ visited topo,
      PendingOK value visited topo → TopoInv R visited topo →
      TopoSpec R value visited topo := by
  intro value
  induction value using Value.inductionOn with
  | hleaf d lab i =>
    intro hvR visited topo hpend hinv
    by_cases hi : i ∈ visited
    · exact topoSpec_of_visited hWF hvR hpend hinv hi (buildTopo_visited hi)
    · obtain ⟨htv, hnd, hsub, hcl⟩ := hinv
      refine ⟨[Value.mk d none lab i], ?_, ?_, ?_, ?_, ?_, Or.inr ⟨[], by simp⟩⟩
      · simp [buildTopo_leaf hi]
      · intro j
        rw [buildTopo_leaf hi]
        simp [Value.id]
        tauto
      · rw [buildTopo_leaf hi]
        refine ⟨?_, ?_, ?_, ?_⟩
        · intro v hv
          simp only [List.mem_append, List.mem_singleton] at hv
          rcases hv with hv | hv
          · exact List.mem_cons_of_mem _ (htv v hv)
          · subst hv; simp [Value.id]
        · rw [List.map_append]
          exact nodup_append_singleton hnd (by
            simpa [Value.id] using not_mem_map_id htv hi)
        · intro v hv
          simp only [List.mem_append, List.mem_singleton] at hv
          rcases hv with hv | hv
          · exact hsub v hv
          · subst hv; exact hvR
        · exact hcl.push (by simp [Value.operands])
      · intro s hs
        rw [buildTopo_leaf hi]
        simp only [Value.subterms, List.mem_singleton] at hs
        subst hs
        simp [Value.id]
      · intro v hv
        simp only [List.mem_singleton] at hv
        subst hv
        exact Value.self_mem_subterms _
  | hbin d lhs rhs b lab i ih1 ih2 =>
    intro hvR visited topo hpend hinv
    by_cases hi : i ∈ visited
    · exact topoSpec_of_visited hWF hvR hpend hinv hi (buildTopo_visited hi)
    · obtain ⟨htv, hnd, hsub, hcl⟩ := hinv
      have hlhsOp : lhs ∈ (Value.mk d (some (Op.Binary lhs rhs b)) lab i).operands := by
        simp [Value.operands]
      have hrhsOp : rhs ∈ (Value.mk d (some (Op.Binary lhs rhs b)) lab i).operands := by
        simp [Value.operands]
      have hlhsR : lhs ∈ R.subterms :=
        Value.mem_subterms_trans (Value.mem_subterms_of_operand hlhsOp) hvR
      have hrhsR : rhs ∈ R.subterms :=
        Value.mem_subterms_trans (Value.mem_subterms_of_operand hrhsOp) hvR
      have hsubL := Value.subterms_subset_of_operand hlhsOp
      have hsubR := Value.subterms_subset_of_operand hrhsOp
      have hneL : ∀ s ∈ lhs.subterms, s.id ≠ i :=
        fun s hs => operand_subterm_id_ne hWF hvR hlhsOp s hs
      have hneR : ∀ s ∈ rhs.subterms, s.id ≠ i :=
        fun s hs => operand_subterm_id_ne hWF hvR hrhsOp s hs
      have hvmem : Value.mk d (some (Op.Binary lhs rhs b)) lab i
          ∈ (Value.mk d (some (Op.Binary lhs rhs b)) lab i).subterms :=
        Value.self_mem_subterms _
      have hpend1 : PendingOK lhs (i :: visited) topo := by
        intro j hj
        rcases List.mem_cons.mp hj with hj | hj
        · subst hj; exact Or.inr hneL
        · rcases hpend j hj with h | h
          · exact Or.inl h
          · exact Or.inr fun s hs => h s (hsubL s hs)
      have hinv1 : TopoInv R (i :: visited) topo :=
        ⟨fun v hv => List.mem_cons_of_mem _ (htv v hv), hnd, hsub, hcl⟩
      obtain ⟨d1, e1, iff1, inv1, compl1, mem1, tail1⟩ :=
        ih1 hlhsR (i :: visited) topo hpend1 hinv1
      obtain ⟨htv1, hnd1, hsub1, hcl1⟩ := inv1
      have hpend2 : PendingOK rhs (buildTopo lhs (i :: visited, topo)).1
          (topo ++ d1) := by
        intro j hj
        rcases (iff1 j).mp hj with hj1 | hj1
        · rcases List.mem_cons.mp hj1 with hj2 | hj2
          · subst hj2; exact Or.inr hneR
          · rcases hpend j hj2 with h | h
            · exact Or.inl (by rw [List.map_append]; exact List.mem_append_left _ h)
            · exact Or.inr fun s hs => h s (hsubR s hs)
        · exact Or.inl (by rw [List.map_append]; exact List.mem_append_right _ hj1)
      obtain ⟨d2, e2, iff2, inv2, compl2, mem2, tail2⟩ :=
        ih2 hrhsR (buildTopo lhs (i :: visited, topo)).1 (topo ++ d1) hpend2
          ⟨htv1, hnd1, hsub1, hcl1⟩
      obtain ⟨htv2, hnd2, hsub2, hcl2⟩ := inv2
      have epair : buildTopo lhs (i :: visited, topo)
          = ((buildTopo lhs (i :: visited, topo)).1, topo ++ d1) := by
        rw [← e1]
      have hbt : buildTopo (Value.mk d (some (Op.Binary lhs rhs b)) lab i)
          (visited, topo)
          = ((buildTopo rhs ((buildTopo lhs (i :: visited, topo)).1,
                topo ++ d1)).1,
             (buildTopo rhs ((buildTopo lhs (i :: visited, topo)).1,
                topo ++ d1)).2 ++
              [Value.mk d (some (Op.Binary lhs rhs b)) lab i]) := by
        rw [buildTopo_bin hi, epair]
      -- the id `i` is in every later visited set
      have hiIn1 : i ∈ (buildTopo lhs (i :: visited, topo)).1 :=
        (iff1 i).mpr (Or.inl (List.mem_cons_self i visited))
      have hiIn2 : i ∈ (buildTopo rhs ((buildTopo lhs (i :: visited, topo)).1,
          topo ++ d1)).1 :=
        (iff2 i).mpr (Or.inl hiIn1)
      -- sublists of R-subterms
      have hd1R : ∀ v ∈ d1, v ∈ R.subterms :=
        fun v hv => Value.mem_subterms_trans (mem1 v hv) hlhsR
      have hd2R : ∀ v ∈ d2, v ∈ R.subterms :=
        fun v hv => Value.mem_subterms_trans (mem2 v hv) hrhsR
      -- the two operands have been emitted before the node is pushed
      have hlhsIn : lhs ∈ (topo ++ d1) ++ d2 := by
        have hl1 : lhs.id ∈ (buildTopo lhs (i :: visited, topo)).1 :=
          compl1 lhs (Value.self_mem_subterms lhs)
        rcases (iff1 lhs.id).mp hl1 with h | h
        · rcases List.mem_cons.mp h with h2 | h2
          · exact absurd h2 (hneL lhs (Value.self_mem_subterms lhs))
          · rcases hpend lhs.id h2 with h3 | h3
            · have : lhs ∈ topo := mem_of_id_mem hWF hlhsR hsub h3
              simp [this]
            · exact absurd rfl
                (h3 lhs (Value.mem_subterms_of_operand hlhsOp))
        · have : lhs ∈ d1 := mem_of_id_mem hWF hlhsR hd1R h
          simp [this]
      have hrhsIn : rhs ∈ (topo ++ d1) ++ d2 := by
        have hr2 : rhs.id ∈ (buildTopo rhs ((buildTopo lhs (i :: visited,
            topo)).1, topo ++ d1)).1 :=
          compl2 rhs (Value.self_mem_subterms rhs)
        rcases (iff2 rhs.id).mp hr2 with h | h
        · rcases (iff1 rhs.id).mp h with h1 | h1
          · rcases List.mem_cons.mp h1 with h2 | h2
            · exact absurd h2 (hneR rhs (Value.self_mem_subterms rhs))
            · rcases hpend rhs.id h2 with h3 | h3
              · have : rhs ∈ topo := mem_of_id_mem hWF hrhsR hsub h3
                simp [this]
              · exact absurd rfl
                  (h3 rhs (Value.mem_subterms_of_operand hrhsOp))
          · have : rhs ∈ d1 := mem_of_id_mem hWF hrhsR hd1R h1
            simp [this]
        · have : rhs ∈ d2 := mem_of_id_mem hWF hrhsR hd2R h
          simp [this]
      -- the node's own id is fresh for the emitted list
      have hiNotIn : i ∉ ((topo ++ d1) ++ d2).map Value.id := by
        intro hmem
        rcases List.mem_map.mp hmem with ⟨t, ht, htid⟩
        simp only [List.mem_append] at ht
        rcases ht with (ht | ht) | ht
        · exact absurd (htid ▸ htv t ht) hi
        · exact hneL t (mem1 t ht) htid
        · exact hneR t (mem2 t ht) htid
      refine ⟨d1 ++ (d2 ++ [Value.mk d (some (Op.Binary lhs rhs b)) lab i]),
        ?_, ?_, ?_, ?_, ?_, Or.inr ⟨d1 ++ d2, by simp⟩⟩
      · rw [hbt]
        dsimp only
        rw [e2]
        simp
      · intro j
        rw [hbt]
        dsimp only
        rw [iff2 j, iff1 j]
        simp only [List.map_append, List.mem_append, List.mem_cons,
          List.map_cons, List.map_nil, Value.id, List.mem_singleton,
          List.not_mem_nil, or_false]
        tauto
      · rw [hbt]
        dsimp only
        refine ⟨?_, ?_, ?_, ?_⟩
        · intro v hv
          simp only [List.mem_append, List.mem_singleton] at hv
          rcases hv with hv | hv | hv | hv
          · exact htv2 v (by simp [hv])
          · exact htv2 v (by simp [hv])
          · exact htv2 v (by simp [hv])
          · subst hv; simpa [Value.id] using hiIn2
        · have : topo ++ (d1 ++ (d2 ++
              [Value.mk d (some (Op.Binary lhs rhs b)) lab i]))
              = ((topo ++ d1) ++ d2) ++
                [Value.mk d (some (Op.Binary lhs rhs b)) lab i] := by
            simp
          rw [this, List.map_append]
          exact nodup_append_singleton hnd2 (by simpa [Value.id] using hiNotIn)
        · intro v hv
          simp only [List.mem_append, List.mem_singleton] at hv
          rcases hv with hv | hv | hv | hv
          · exact hsub v hv
          · exact hd1R v hv
          · exact hd2R v hv
          · subst hv; exact hvR
        · have heq : topo ++ (d1 ++ (d2 ++
              [Value.mk d (some (Op.Binary lhs rhs b)) lab i]))
              = ((topo ++ d1) ++ d2) ++
                [Value.mk d (some (Op.Binary lhs rhs b)) lab i] := by
            simp
          rw [heq]
          refine hcl2.push ?_
          intro x hx
          simp only [Value.operands, List.mem_cons, List.mem_singleton,
            List.not_mem_nil, or_false] at hx
          rcases hx with hx | hx
          · subst hx; exact hlhsIn
          · subst hx; exact hrhsIn
      · intro s hs
        rw [hbt]
        dsimp only
        simp only [Value.subterms, List.mem_cons, List.mem_append] at hs
        rcases hs with hs | hs | hs
        · subst hs; simpa [Value.id] using hiIn2
        · exact (iff2 s.id).mpr (Or.inl (compl1 s hs))
        · exact compl2 s hs
      · intro v hv
        simp only [List.mem_append, List.mem_singleton] at hv
        rcases hv with hv | hv | hv
        · exact hsubL v (mem1 v hv)
        · exact hsubR v (mem2 v hv)
        · subst hv; exact hvmem
  | hun d x u lab i ih =>
    intro hvR visited topo hpend hinv
    by_cases hi : i ∈ visited
    · exact topoSpec_of_visited hWF hvR hpend hinv hi (buildTopo_visited hi)
    · obtain ⟨htv, hnd, hsub, hcl⟩ := hinv
      have hxOp : x ∈ (Value.mk d (some (Op.Unary x u)) lab i).operands := by
        simp [Value.operands]
      have hxR : x ∈ R.subterms :=
        Value.mem_subterms_trans (Value.mem_subterms_of_operand hxOp) hvR
      have hsubX := Value.subterms_subset_of_operand hxOp
      have hneX : ∀ s ∈ x.subterms, s.id ≠ i :=
        fun s hs => operand_subterm_id_ne hWF hvR hxOp s hs
      have hpend1 : PendingOK x (i :: visited) topo := by
        intro j hj
        rcases List.mem_cons.mp hj with hj | hj
        · subst hj; exact Or.inr hneX
        · rcases hpend j hj with h | h
          · exact Or.inl h
          · exact Or.inr fun s hs => h s (hsubX s hs)
      have hinv1 : TopoInv R (i :: visited) topo :=
        ⟨fun v hv => List.mem_cons_of_mem _ (htv v hv), hnd, hsub, hcl⟩
      obtain ⟨d1, e1, iff1, inv1, compl1, mem1, tail1⟩ :=
        ih hxR (i :: visited) topo hpend1 hinv1
      obtain ⟨htv1, hnd1, hsub1, hcl1⟩ := inv1
      have hbt : buildTopo (Value.mk d (some (Op.Unary x u)) lab i)
          (visited, topo)
          = ((buildTopo x (i :: visited, topo)).1,
             (buildTopo x (i :: visited, topo)).2 ++
              [Value.mk d (some (Op.Unary x u)) lab i]) :=
        buildTopo_un hi
      have hiIn1 : i ∈ (buildTopo x (i :: visited, topo)).1 :=
        (iff1 i).mpr (Or.inl (List.mem_cons_self i visited))
      have hd1R : ∀ v ∈ d1, v ∈ R.subterms :=
        fun v hv => Value.mem_subterms_trans (mem1 v hv) hxR
      have hxIn : x ∈ topo ++ d1 := by
        have hl1 : x.id ∈ (buildTopo x (i :: visited, topo)).1 :=
          compl1 x (Value.self_mem_subterms x)
        rcases (iff1 x.id).mp hl1 with h | h
        · rcases List.mem_cons.mp h with h2 | h2
          · exact absurd h2 (hneX x (Value.self_mem_subterms x))
          · rcases hpend x.id h2 with h3 | h3
            · have : x ∈ topo := mem_of_id_mem hWF hxR hsub h3
              simp [this]
            · exact absurd rfl (h3 x (Value.mem_subterms_of_operand hxOp))
        · have : x ∈ d1 := mem_of_id_mem hWF hxR hd1R h
          simp [this]
      have hiNotIn : i ∉ (topo ++ d1).map Value.id := by
        intro hmem
        rcases List.mem_map.mp hmem with ⟨t, ht, htid⟩
        simp only [List.mem_append] at ht
        rcases ht with ht | ht
        · exact absurd (htid ▸ htv t ht) hi
        · exact hneX t (mem1 t ht) htid
      refine ⟨d1 ++ [Value.mk d (some (Op.Unary x u)) lab i],
        ?_, ?_, ?_, ?_, ?_, Or.inr ⟨d1, by simp⟩⟩
      · rw [hbt]
        dsimp only
        rw [e1]
        simp
      · intro j
        rw [hbt]
        dsimp only
        rw [iff1 j]
        simp only [List.map_append, List.mem_append, List.mem_cons,
          List.map_cons, List.map_nil, Value.id, List.mem_singleton,
          List.not_mem_nil, or_false]
        tauto
      · rw [hbt]
        dsimp only
        refine ⟨?_, ?_, ?_, ?_⟩
        · intro v hv
          simp only [List.mem_append, List.mem_singleton] at hv
          rcases hv with hv | hv | hv
          · exact htv1 v (by simp [hv])
          · exact htv1 v (by simp [hv])
          · subst hv; simpa [Value.id] using hiIn1
        · have heq : topo ++ (d1 ++ [Value.mk d (some (Op.Unary x u)) lab i])
              = (topo ++ d1) ++ [Value.mk d (some (Op.Unary x u)) lab i] := by
            simp
          rw [heq, List.map_append]
          exact nodup_append_singleton hnd1 (by simpa [Value.id] using hiNotIn)
        · intro v hv
          simp only [List.mem_append, List.mem_singleton] at hv
          rcases hv with hv | hv | hv
          · exact hsub v hv
          · exact hd1R v hv
          · subst hv; exact hvR
        · have heq : topo ++ (d1 ++ [Value.mk d (some (Op.Unary x u)) lab i])
              = (topo ++ d1) ++ [Value.mk d (some (Op.Unary x u)) lab i] := by
            simp
          rw [heq]
          refine hcl1.push ?_
          intro y hy
          simp only [Value.operands, List.mem_singleton] at hy
          subst hy; exact hxIn
      · intro s hs
        rw [hbt]
        dsimp only
        simp only [Value.subterms, List.mem_cons] at hs
        rcases hs with hs | hs
        · subst hs; simpa [Value.id] using hiIn1
        · exact compl1 s hs
      · intro v hv
        simp only [List.mem_append, List.mem_singleton] at hv
        rcases hv with hv | hv
        · exact hsubX v (mem1 v hv)
        · subst hv; exact Value.self_mem_subterms _

/-- In a valid topological order of a well-formed tree, every element other
than the root has a consumer strictly later in the list. -/
theorem parent_after {R : Value} {topo : List Value}
    (hsub : ∀ v ∈ topo, v ∈ R.subterms)
    (hcompl : ∀ s ∈ R.subterms, s ∈ topo)
    (hcl : SubClosed topo)
    (hnd : (topo.map Value.id).Nodup) :
    ∀ A v B, topo = A ++ v :: B → v ≠ R → ∃ p ∈ B, v ∈ p.operands := by
  intro A v B hsplit hne
  have hv : v ∈ topo := hsplit ▸ (by simp)
  have hvR : v ∈ R.subterms := hsub v hv
  rcases Value.exists_parent hvR with h | ⟨p, hpR, hvp⟩
  · exact absurd h hne
  have hp : p ∈ topo := hcompl p hpR
  rw [hsplit] at hp
  simp only [List.mem_append, List.mem_cons] at hp
  rcases hp with hpA | hpv | hpB
  · -- p before v: SubClosed would force a second occurrence of v, against Nodup
    obtain ⟨A1, A2, hA⟩ := List.append_of_mem hpA
    subst hA
    have hsplit2 : topo = A1 ++ p :: (A2 ++ v :: B) := by
      simpa using hsplit
    have hvA1 : v ∈ A1 := hcl A1 p (A2 ++ v :: B) hsplit2 v hvp
    exfalso
    rw [hsplit2] at hnd
    simp only [List.map_append, List.map_cons] at hnd
    rw [List.nodup_append] at hnd
    exact hnd.2.2 (List.mem_map_of_mem Value.id hvA1) (by simp)
  · subst hpv
    exact absurd (Value.mem_subterms_of_operand hvp)
      (Value.not_mem_subterms_of_operand hvp)
  · exact ⟨p, hpB, hvp⟩

/-- One iteration of the reverse loop in `Value::backward`.  `none` models a
panic: either the unchecked `grad_store.0.get(&v.id).unwrap()` failing, or an
`unreachable!()` arm (`Sub`, `Div`) being reached. -/
noncomputable def backwardStep (gs : GradStore) (v : Value) : Option GradStore :=
  match gs v.id with
  | none => none
  | some vGrad =>
    match v.op with
    | none => some gs
    | some (Op.Binary lhs rhs BinaryOp.Add) =>
        some ((gs.orInsertAdd lhs.id vGrad).orInsertAdd rhs.id vGrad)
    | some (Op.Binary lhs rhs BinaryOp.Mul) =>
        some ((gs.orInsertAdd lhs.id (rhs.data * vGrad)).orInsertAdd rhs.id
          (lhs.data * vGrad))
    | some (Op.Binary _ _ BinaryOp.Div) => none
    | some (Op.Binary _ _ BinaryOp.Sub) => none
    | some (Op.Binary lhs rhs BinaryOp.Pow) =>
        some ((gs.orInsertAdd lhs.id
            (rhs.data * lhs.data ^ (rhs.data - 1) * vGrad)).orInsertAdd rhs.id
          (lhs.data ^ rhs.data * vGrad))
    | some (Op.Unary x UnaryOp.Tanh) =>
        some (gs.orInsertAdd x.id ((1 - v.data ^ 2) * vGrad))
    | some (Op.Unary x UnaryOp.Exp) =>
        some (gs.orInsertAdd x.id (Real.exp v.data * vGrad))
    | some (Op.Unary x UnaryOp.Relu) =>
        some (gs.orInsertAdd x.id ((if x.data > 0 then (1 : ℝ) else 0) * vGrad))

/-- The reverse loop `for v in topo.iter().rev()`, run over an explicit list. -/
noncomputable def backwardLoop : GradStore → List Value → Option GradStore
  | gs, [] => some gs
  | gs, v :: rest =>
    match backwardStep gs v with
    | none => none
    | some gs1 => backwardLoop gs1 rest

/-- Rust `Value::backward`: seed the root with gradient `1.0`, build the
topological order, walk it in reverse accumulating local gradients. -/
noncomputable def Value.backward (self : Value) : Option GradStore :=
  let gs := GradStore.new.insert self.id 1
  let topo := (buildTopo self ([], [])).2
  backwardLoop gs topo.reverse

/-- The topological order computed inside `Value::backward`: the second
component of `build_topo(root, HashMap::new(), Vec::new())`. -/
def topoOf (root : Value) : List Value :=
  (buildTopo root ([], [])).2

/-- Unfolding of `Value::backward` through its two `let` bindings. -/
theorem backward_def (root : Value) : root.backward =
    backwardLoop (GradStore.new.insert root.id 1) (topoOf root).reverse := rfl

/-- Top-level properties of the topological order of a well-formed root. -/
theorem topoOf_spec {root : Value} (hWF : Value.WF root) :
    (∀ s ∈ root.subterms, s ∈ topoOf root) ∧
    ((topoOf root).map Value.id).Nodup ∧
    (∀ v ∈ topoOf root, v ∈ root.subterms) ∧
    SubClosed (topoOf root) ∧
    (∃ mid, topoOf root = mid ++ [root]) := by
  obtain ⟨np, e, hiff, inv, compl, memN, tail⟩ :=
    buildTopo_spec hWF root (Value.self_mem_subterms root) [] []
      (by intro j hj; simp at hj)
      ⟨by simp, by simp, by simp, subClosed_nil⟩
  obtain ⟨htv, hnd, hsub, hcl⟩ := inv
  have htopo : topoOf root = np := by
    simpa [topoOf] using e
  have hcompl : ∀ s ∈ root.subterms, s ∈ topoOf root := by
    intro s hs
    have hsid : s.id ∈ (buildTopo root ([], [])).1 := compl s hs
    have : s.id ∈ np.map Value.id := by
      rcases (hiff s.id).mp hsid with h | h
      · simp at h
      · exact h
    have hsR : s ∈ root.subterms := hs
    have hnpR : ∀ v ∈ np, v ∈ root.subterms := by
      intro v hv
      exact hsub v (by simpa using hv)
    rw [htopo]
    exact mem_of_id_mem hWF hsR hnpR this
  refine ⟨hcompl, ?_, ?_, ?_, ?_⟩
  · rw [htopo]
    simpa using hnd
  · intro v hv
    rw [htopo] at hv
    exact hsub v (by simpa using hv)
  · have : SubClosed ([] ++ np) := hcl
    rw [htopo]
    simpa using this
  · rcases tail with h | ⟨mid, hmid⟩
    · exfalso
      have : root ∈ topoOf root := hcompl root (Value.self_mem_subterms root)
      rw [htopo, h] at this
      simp at this
    · exact ⟨mid, by rw [htopo, hmid]⟩

/-- Reachable states of the graph builder.  `Trace n pool` holds when, after
some sequence of public node-producing operations starting from a fresh
process (the `ValueId` counter starts at 1), the counter reads `n` and `pool`
lists every `Value` returned so far.  Leaf creation covers `Value::new`,
`Value::new_with_label`, `Value::from` and `Value::default`; `relu` creates a
leaf-shaped node (its `op` is `None` in the source). -/
inductive Trace : ℕ → List Value → Prop where
  | init : Trace 1 []
  | leafStep (d : ℝ) (lab : String) {n : ℕ} {pool : List Value} :
      Trace n pool → Trace (n + 1) (Value.newWithLabel d lab n :: pool)
  | addStep {a b : Value} {n : ℕ} {pool : List Value} :
      Trace n pool → a ∈ pool → b ∈ pool →
      Trace (n + 1) (Value.add a b n :: pool)
  | mulStep {a b : Value} {n : ℕ} {pool : List Value} :
      Trace n pool → a ∈ pool → b ∈ pool →
      Trace (n + 1) (Value.mul a b n :: pool)
  | powStep {a b : Value} {n : ℕ} {pool : List Value} :
      Trace n pool → a ∈ pool → b ∈ pool →
      Trace (n + 1) (Value.pow a b n :: pool)
  | expStep {a : Value} {n : ℕ} {pool : List Value} :
      Trace n pool → a ∈ pool → Trace (n + 1) (Value.exp a n :: pool)
  | tanhStep {a : Value} {n : ℕ} {pool : List Value} :
      Trace n pool → a ∈ pool → Trace (n + 1) (Value.tanh a n :: pool)
  | reluStep {a : Value} {n : ℕ} {pool : List Value} :
      Trace n pool → a ∈ pool → Trace (n + 1) (Value.relu a n :: pool)

/-- Invariant of builder states: all ids are below the counter, ids determine
nodes across the whole pool, and no node carries `Sub`/`Div` provenance. -/
def PoolInv (n : ℕ) (pool : List Value) : Prop :=
  (∀ v ∈ pool, ∀ s ∈ v.subterms, s.id < n) ∧
  (∀ u ∈ pool, ∀ v ∈ pool, ∀ s ∈ u.subterms, ∀ t ∈ v.subterms,
    s.id = t.id → s = t) ∧
  (∀ v ∈ pool, ∀ s ∈ v.subterms, ∀ l r,
    s.op ≠ some (Op.Binary l r BinaryOp.Sub) ∧
    s.op ≠ some (Op.Binary l r BinaryOp.Div))

theorem poolInv_leaf {n : ℕ} {pool : List Value} (ih : PoolInv n pool)
    (dval : ℝ) (lab : String) :
    PoolInv (n + 1) (Value.mk dval none lab n :: pool) := by
  obtain ⟨hlt, hcons, hgood⟩ := ih
  refine ⟨?_, ?_, ?_⟩
  · intro v hv s hs
    rcases List.mem_cons.mp hv with hv | hv
    · subst hv
      simp only [Value.subterms, List.mem_singleton] at hs
      subst hs
      simp [Value.id]
    · exact (hlt v hv s hs).trans (by omega)
  · intro u hu v hv s hs t ht heq
    rcases List.mem_cons.mp hu with hu | hu <;>
      rcases List.mem_cons.mp hv with hv | hv
    · subst hu; subst hv
      simp only [Value.subterms, List.mem_singleton] at hs ht
      subst hs; subst ht; rfl
    · subst hu
      simp only [Value.subterms, List.mem_singleton] at hs
      subst hs
      have := hlt v hv t ht
      exact absurd (show n = t.id from heq) (by omega)
    · subst hv
      simp only [Value.subterms, List.mem_singleton] at ht
      subst ht
      have := hlt u hu s hs
      exact absurd (show s.id = n from heq) (by omega)
    · exact hcons u hu v hv s hs t ht heq
  · intro v hv s hs l r
    rcases List.mem_cons.mp hv with hv | hv
    · subst hv
      simp only [Value.subterms, List.mem_singleton] at hs
      subst hs
      simp [Value.op]
    · exact hgood v hv s hs l r

theorem poolInv_binary {n : ℕ} {pool : List Value} {a b : Value}
    (ih : PoolInv n pool) (ha : a ∈ pool) (hb : b ∈ pool)
    (dval : ℝ) {bop : BinaryOp} (hbop : bop ≠ BinaryOp.Sub ∧ bop ≠ BinaryOp.Div) :
    PoolInv (n + 1) (Value.mk dval (some (Op.Binary a b bop)) "" n :: pool) := by
  obtain ⟨hlt, hcons, hgood⟩ := ih
  have hsubdec : ∀ s, s ∈ (Value.mk dval (some (Op.Binary a b bop)) "" n).subterms ↔
      s = Value.mk dval (some (Op.Binary a b bop)) "" n ∨
        s ∈ a.subterms ∨ s ∈ b.subterms := by
    intro s
    simp [Value.subterms]
  have hold : ∀ s, (s ∈ a.subterms ∨ s ∈ b.subterms) → s.id < n := by
    intro s hs
    rcases hs with hs | hs
    · exact hlt a ha s hs
    · exact hlt b hb s hs
  have holdR : ∀ s, (s ∈ a.subterms ∨ s ∈ b.subterms) →
      ∀ t, (t ∈ a.subterms ∨ t ∈ b.subterms) → s.id = t.id → s = t := by
    intro s hs t ht heq
    rcases hs with hs | hs <;> rcases ht with ht | ht
    · exact hcons a ha a ha s hs t ht heq
    · exact hcons a ha b hb s hs t ht heq
    · exact hcons b hb a ha s hs t ht heq
    · exact hcons b hb b hb s hs t ht heq
  refine ⟨?_, ?_, ?_⟩
  · intro v hv s hs
    rcases List.mem_cons.mp hv with hv | hv
    · subst hv
      rcases (hsubdec s).mp hs with h | h
      · subst h; simp [Value.id]
      · exact (hold s h).trans (by omega)
    · exact (hlt v hv s hs).trans (by omega)
  · intro u hu v hv s hs t ht heq
    rcases List.mem_cons.mp hu with hu | hu <;>
      rcases List.mem_cons.mp hv with hv | hv
    · subst hu; subst hv
      rcases (hsubdec s).mp hs with h1 | h1 <;> rcases (hsubdec t).mp ht with h2 | h2
      · rw [h1, h2]
      · subst h1
        have := hold t h2
        exact absurd (show n = t.id from heq) (by omega)
      · subst h2
        have := hold s h1
        exact absurd (show s.id = n from heq) (by omega)
      · exact holdR s h1 t h2 heq
    · subst hu
      rcases (hsubdec s).mp hs with h1 | h1
      · subst h1
        have := hlt v hv t ht
        exact absurd (show n = t.id from heq) (by omega)
      · rcases h1 with h1 | h1
        · exact hcons a ha v hv s h1 t ht heq
        · exact hcons b hb v hv s h1 t ht heq
    · subst hv
      rcases (hsubdec t).mp ht with h2 | h2
      · subst h2
        have := hlt u hu s hs
        exact absurd (show s.id = n from heq) (by omega)
      · rcases h2 with h2 | h2
        · exact hcons u hu a ha s hs t h2 heq
        · exact hcons u hu b hb s hs t h2 heq
    · exact hcons u hu v hv s hs t ht heq
  · intro v hv s hs l r
    rcases List.mem_cons.mp hv with hv | hv
    · subst hv
      rcases (hsubdec s).mp hs with h | h
      · subst h
        constructor
        · simp only [Value.op, Option.some.injEq]
          intro hx
          cases hx
          exact hbop.1 rfl
        · simp only [Value.op, Option.some.injEq]
          intro hx
          cases hx
          exact hbop.2 rfl
      · rcases h with h | h
        · exact hgood a ha s h l r
        · exact hgood b hb s h l r
    · exact hgood v hv s hs l r

theorem poolInv_unary {n : ℕ} {pool : List Value} {a : Value}
    (ih : PoolInv n pool) (ha : a ∈ pool) (dval : ℝ) (uop : UnaryOp) :
    PoolInv (n + 1) (Value.mk dval (some (Op.Unary a uop)) "" n :: pool) := by
  obtain ⟨hlt, hcons, hgood⟩ := ih
  have hsubdec : ∀ s, s ∈ (Value.mk dval (some (Op.Unary a uop)) "" n).subterms ↔
      s = Value.mk dval (some (Op.Unary a uop)) "" n ∨ s ∈ a.subterms := by
    intro s
    simp [Value.subterms]
  refine ⟨?_, ?_, ?_⟩
  · intro v hv s hs
    rcases List.mem_cons.mp hv with hv | hv
    · subst hv
      rcases (hsubdec s).mp hs with h | h
      · subst h; simp [Value.id]
      · exact (hlt a ha s h).trans (by omega)
    · exact (hlt v hv s hs).trans (by omega)
  · intro u hu v hv s hs t ht heq
    rcases List.mem_cons.mp hu with hu | hu <;>
      rcases List.mem_cons.mp hv with hv | hv
    · subst hu; subst hv
      rcases (hsubdec s).mp hs with h1 | h1 <;> rcases (hsubdec t).mp ht with h2 | h2
      · rw [h1, h2]
      · subst h1
        have := hlt a ha t h2
        exact absurd (show n = t.id from heq) (by omega)
      · subst h2
        have := hlt a ha s h1
        exact absurd (show s.id = n from heq) (by omega)
      · exact hcons a ha a ha s h1 t h2 heq
    · subst hu
      rcases (hsubdec s).mp hs with h1 | h1
      · subst h1
        have := hlt v hv t ht
        exact absurd (show n = t.id from heq) (by omega)
      · exact hcons a ha v hv s h1 t ht heq
    · subst hv
      rcases (hsubdec t).mp ht with h2 | h2
      · subst h2
        have := hlt u hu s hs
        exact absurd (show s.id = n from heq) (by omega)
      · exact hcons u hu a ha s hs t h2 heq
    · exact hcons u hu v hv s hs t ht heq
  · intro v hv s hs l r
    rcases List.mem_cons.mp hv with hv | hv
    · subst hv
      rcases (hsubdec s).mp hs with h | h
      · subst h
        simp [Value.op]
      · exact hgood a ha s h l r
    · exact hgood v hv s hs l r

theorem Trace.poolInv {n : ℕ} {pool : List Value} (h : Trace n pool) :
    PoolInv n pool := by
  induction h with
  | init => exact ⟨by simp, by simp, by simp⟩
  | leafStep d lab h ih => exact poolInv_leaf ih d lab
  | addStep h ha hb ih => exact poolInv_binary ih ha hb _ ⟨by simp, by simp⟩
  | mulStep h ha hb ih => exact poolInv_binary ih ha hb _ ⟨by simp, by simp⟩
  | powStep h ha hb ih => exact poolInv_binary ih ha hb _ ⟨by simp, by simp⟩
  | expStep h ha ih => exact poolInv_unary ih ha _ _
  | tanhStep h ha ih => exact poolInv_unary ih ha _ _
  | reluStep h ha ih => exact poolInv_leaf ih _ _

/-- Every value produced by the public build operations is well-formed. -/
theorem Trace.wf {n : ℕ} {pool : List Value} {root : Value} (h : Trace n pool)
    (hr : root ∈ pool) : Value.WF root :=
  fun s hs t ht heq => h.poolInv.2.1 root hr root hr s hs t ht heq

/-- No value produced by the public build operations has `Sub`/`Div`
provenance anywhere in its graph. -/
theorem Trace.noSubDiv {n : ℕ} {pool : List Value} {root : Value}
    (h : Trace n pool) (hr : root ∈ pool) :
    ∀ s ∈ root.subterms, ∀ l r,
      s.op ≠ some (Op.Binary l r BinaryOp.Sub) ∧
      s.op ≠ some (Op.Binary l r BinaryOp.Div) :=
  fun s hs l r => h.poolInv.2.2 root hr s hs l r

/-- Provenances whose backward arm is not `unreachable!()`. -/
def goodOp : Option Op → Prop
  | some (Op.Binary _ _ BinaryOp.Sub) => False
  | some (Op.Binary _ _ BinaryOp.Div) => False
  | _ => True

theorem goodOp_of_ne {o : Option Op}
    (h : ∀ l r, o ≠ some (Op.Binary l r BinaryOp.Sub) ∧
      o ≠ some (Op.Binary l r BinaryOp.Div)) : goodOp o := by
  rcases o with _ | op
  · trivial
  rcases op with ⟨l, r, bop⟩ | ⟨x, uop⟩
  · cases bop
    · trivial
    · exact absurd rfl (h l r).1
    · trivial
    · exact absurd rfl (h l r).2
    · trivial
  · cases uop <;> trivial

theorem orInsertAdd_isSome_of {s : GradStore} {i k : ℕ} {dv : ℝ}
    (h : (s k).isSome) : ((s.orInsertAdd i dv) k).isSome := by
  unfold GradStore.orInsertAdd GradStore.insert
  by_cases hk : k = i <;> simp [hk, h]

theorem orInsertAdd_isSome_self {s : GradStore} {i : ℕ} {dv : ℝ} :
    ((s.orInsertAdd i dv) i).isSome := by
  unfold GradStore.orInsertAdd GradStore.insert
  simp

theorem orInsertAdd_none_of {s : GradStore} {i k : ℕ} {dv : ℝ}
    (h : s k = none) (hk : k ≠ i) : (s.orInsertAdd i dv) k = none := by
  unfold GradStore.orInsertAdd GradStore.insert
  simp [hk, h]

theorem backwardStep_isSome {gs : GradStore} {v : Value}
    (hv : (gs v.id).isSome) (hg : goodOp v.op) :
    (backwardStep gs v).isSome := by
  obtain ⟨g, hgsome⟩ := Option.isSome_iff_exists.mp hv
  rcases v with ⟨dv, o, lv, iv⟩
  simp only [Value.id] at hgsome
  rcases o with _ | op
  · simp [backwardStep, Value.id, Value.op, hgsome]
  rcases op with ⟨l, r, bop⟩ | ⟨x, uop⟩
  · cases bop
    · simp [backwardStep, Value.id, Value.op, hgsome]
    · exact absurd hg (by simp [goodOp, Value.op])
    · simp [backwardStep, Value.id, Value.op, hgsome]
    · exact absurd hg (by simp [goodOp, Value.op])
    · simp [backwardStep, Value.id, Value.op, hgsome]
  · cases uop <;> simp [backwardStep, Value.id, Value.op, hgsome]

theorem backwardStep_mono {gs gs2 : GradStore} {v : Value}
    (h : backwardStep gs v = some gs2) {k : ℕ}
    (hk : (gs k).isSome) : (gs2 k).isSome := by
  rcases v with ⟨dv, o, lv, iv⟩
  simp only [backwardStep, Value.id, Value.op] at h
  rcases hq : gs iv with _ | g
  · rw [hq] at h; simp at h
  rw [hq] at h
  rcases o with _ | op
  · simp at h; subst h; exact hk
  rcases op with ⟨l, r, bop⟩ | ⟨x, uop⟩
  · cases bop <;> simp at h
    · subst h; exact orInsertAdd_isSome_of (orInsertAdd_isSome_of hk)
    · subst h; exact orInsertAdd_isSome_of (orInsertAdd_isSome_of hk)
    · subst h; exact orInsertAdd_isSome_of (orInsertAdd_isSome_of hk)
  · cases uop <;> simp at h <;> subst h <;> exact orInsertAdd_isSome_of hk

theorem backwardStep_operand {gs gs2 : GradStore} {v : Value}
    (h : backwardStep gs v = some gs2) :
    ∀ x ∈ v.operands, (gs2 x.id).isSome := by
  rcases v with ⟨dv, o, lv, iv⟩
  simp only [backwardStep, Value.id, Value.op] at h
  rcases hq : gs iv with _ | g
  · rw [hq] at h; simp at h
  rw [hq] at h
  rcases o with _ | op
  · intro x hx; simp [Value.operands] at hx
  rcases op with ⟨l, r, bop⟩ | ⟨x0, uop⟩
  · intro x hx
    simp only [Value.operands, List.mem_cons, List.mem_singleton,
      List.not_mem_nil, or_false] at hx
    cases bop <;> simp at h
    · subst h
      rcases hx with hx | hx <;> subst hx
      · exact orInsertAdd_isSome_of orInsertAdd_isSome_self
      · exact orInsertAdd_isSome_self
    · subst h
      rcases hx with hx | hx <;> subst hx
      · exact orInsertAdd_isSome_of orInsertAdd_isSome_self
      · exact orInsertAdd_isSome_self
    · subst h
      rcases hx with hx | hx <;> subst hx
      · exact orInsertAdd_isSome_of orInsertAdd_isSome_self
      · exact orInsertAdd_isSome_self
  · intro x hx
    simp only [Value.operands, List.mem_singleton] at hx
    subst hx
    cases uop <;> simp at h <;> subst h <;> exact orInsertAdd_isSome_self

theorem backwardStep_none_preserved {gs gs2 : GradStore} {v : Value}
    (h : backwardStep gs v = some gs2) {k : ℕ}
    (hk : gs k = none) (hops : ∀ x ∈ v.operands, x.id ≠ k) : gs2 k = none := by
  rcases v with ⟨dv, o, lv, iv⟩
  simp only [backwardStep, Value.id, Value.op] at h
  rcases hq : gs iv with _ | g
  · rw [hq] at h; simp at h
  rw [hq] at h
  rcases o with _ | op
  · simp at h; subst h; exact hk
  rcases op with ⟨l, r, bop⟩ | ⟨x0, uop⟩
  · have hl : l.id ≠ k := hops l (by simp [Value.operands])
    have hr : r.id ≠ k := hops r (by simp [Value.operands])
    cases bop <;> simp at h <;> subst h <;>
      exact orInsertAdd_none_of (orInsertAdd_none_of hk (fun hc => hl hc.symm))
        (fun hc => hr hc.symm)
  · have hx : x0.id ≠ k := hops x0 (by simp [Value.operands])
    cases uop <;> simp at h <;> subst h <;>
      exact orInsertAdd_none_of hk (fun hc => hx hc.symm)

/-- Running the reverse loop over a prefix `A` succeeds and transfers the
entry-or-pending-consumer invariant to the remaining suffix. -/
theorem backwardLoop_prefix :
    ∀ (A rest : List Value) (gs : GradStore),
      (∀ X v Y, A ++ rest = X ++ v :: Y →
        (gs v.id).isSome ∨ ∃ p ∈ X, v ∈ p.operands) →
      (∀ v ∈ A, goodOp v.op) →
      ∃ gs2, backwardLoop gs A = some gs2 ∧
        (∀ X v Y, rest = X ++ v :: Y →
          (gs2 v.id).isSome ∨ ∃ p ∈ X, v ∈ p.operands) := by
  intro A
  induction A with
  | nil =>
    intro rest gs hent hgood
    exact ⟨gs, by simp [backwardLoop], fun X v Y hXY => hent X v Y (by simp [hXY])⟩
  | cons h0 A ih =>
    intro rest gs hent hgood
    have hh : (gs h0.id).isSome := by
      rcases hent [] h0 (A ++ rest) rfl with h1 | ⟨p, hp, _⟩
      · exact h1
      · simp at hp
    obtain ⟨gs1, hstep⟩ :=
      Option.isSome_iff_exists.mp (backwardStep_isSome hh (hgood h0 (by simp)))
    have hloop : backwardLoop gs (h0 :: A) = backwardLoop gs1 A := by
      simp [backwardLoop, hstep]
    rw [hloop]
    apply ih
    · intro X v Y hXY
      rcases hent (h0 :: X) v Y (by simp [hXY]) with h1 | ⟨p, hp, hvp⟩
      · exact Or.inl (backwardStep_mono hstep h1)
      · rcases List.mem_cons.mp hp with hp1 | hp1
        · subst hp1; exact Or.inl (backwardStep_operand hstep v hvp)
        · exact Or.inr ⟨p, hp1, hvp⟩
    · intro v hv
      exact hgood v (by simp [hv])

/-- At every split of the reverse topological order, the node about to be
processed either already has a gradient entry (the seeded root) or one of the
already-processed nodes is a consumer of it. -/
theorem backward_entries {n : ℕ} {pool : List Value} {root : Value}
    (htr : Trace n pool) (hroot : root ∈ pool) :
    ∀ X v Y, (topoOf root).reverse = X ++ v :: Y →
      ((GradStore.new.insert root.id 1) v.id).isSome ∨ ∃ p ∈ X, v ∈ p.operands := by
  have hWF := htr.wf hroot
  obtain ⟨hcompl, hnd, hsub, hcl, mid, hmid⟩ := topoOf_spec hWF
  intro X v Y hXY
  by_cases hvroot : v = root
  · subst hvroot
    left
    simp [GradStore.insert, GradStore.new]
  · right
    have htopo : topoOf root = Y.reverse ++ v :: X.reverse := by
      have h1 := congrArg List.reverse hXY
      simp only [List.reverse_reverse, List.reverse_append,
        List.reverse_cons, List.append_assoc, List.singleton_append] at h1
      exact h1
    obtain ⟨p, hp, hvp⟩ :=
      parent_after hsub hcompl hcl hnd Y.reverse v X.reverse htopo hvroot
    exact ⟨p, by simpa using hp, hvp⟩

/-- No node of a built graph carries a provenance whose backward arm is
`unreachable!()`. -/
theorem goodOp_topo {n : ℕ} {pool : List Value} {root : Value}
    (htr : Trace n pool) (hroot : root ∈ pool) :
    ∀ v ∈ (topoOf root).reverse, goodOp v.op := by
  have hWF := htr.wf hroot
  obtain ⟨hcompl, hnd, hsub, hcl, mid, hmid⟩ := topoOf_spec hWF
  intro v hv
  have hvtopo : v ∈ topoOf root := by simpa using hv
  exact goodOp_of_ne (htr.noSubDiv hroot v (hsub v hvtopo))

/-- The backward pass of a built graph never panics. -/
theorem backward_isSome_aux {n : ℕ} {pool : List Value} {root : Value}
    (htr : Trace n pool) (hroot : root ∈ pool) :
    (root.backward).isSome := by
  obtain ⟨gs2, hloop, _⟩ :=
    backwardLoop_prefix ((topoOf root).reverse) [] (GradStore.new.insert root.id 1)
      (fun X v Y h => backward_entries htr hroot X v Y (by simpa using h))
      (goodOp_topo htr hroot)
  rw [backward_def, hloop]
  simp

/-- Keys never touched by any processed node stay absent from the store. -/
theorem backwardLoop_none_preserved :
    ∀ (L : List Value) (gs gs2 : GradStore), backwardLoop gs L = some gs2 →
      ∀ k, gs k = none → (∀ v ∈ L, ∀ x ∈ v.operands, x.id ≠ k) →
        gs2 k = none := by
  intro L
  induction L with
  | nil =>
    intro gs gs2 h k hk _
    simp [backwardLoop] at h
    subst h
    exact hk
  | cons h0 rest ih =>
    intro gs gs2 h k hk hops
    rcases hstep : backwardStep gs h0 with _ | gs1
    · simp [backwardLoop, hstep] at h
    · have h2 : backwardLoop gs1 rest = some gs2 := by
        simpa [backwardLoop, hstep] using h
      exact ih gs1 gs2 h2 k
        (backwardStep_none_preserved hstep hk (hops h0 (by simp)))
        (fun v hv => hops v (by simp [hv]))

/-- Split-form operand ordering converted to index form: every operand of the
element at position `j` occurs at a strictly earlier position `k < j`. -/
theorem SubClosed.exists_earlier {L : List Value} (h : SubClosed L) :
    ∀ j (hj : j < L.length), ∀ x ∈ (L.get ⟨j, hj⟩).operands,
      ∃ k, ∃ hk : k < L.length, k < j ∧ L.get ⟨k, hk⟩ = x := by
  intro j hj x hx
  have hsplit : L = L.take j ++ L.get ⟨j, hj⟩ :: L.drop (j + 1) := by
    conv_lhs => rw [← List.take_append_drop j L]
    congr 1
    rw [List.get_eq_getElem]
    exact (List.getElem_cons_drop L j hj).symm
  have hxA : x ∈ L.take j := h (L.take j) _ (L.drop (j + 1)) hsplit x hx
  obtain ⟨k, hk, hget⟩ := List.getElem_of_mem hxA
  have hkj : k < j := by
    have := hk
    simp [List.length_take] at this
    omega
  have hkL : k < L.length := lt_of_lt_of_le hkj (le_of_lt hj)
  refine ⟨k, hkL, hkj, ?_⟩
  rw [List.get_eq_getElem]
  rw [← hget]
  exact (List.getElem_take L).symm

/-- C3: for every root node built through the public operations, the sequence
produced by the topological sort inside `backward` contains every node
reachable from the root by provenance edges, contains nothing else, contains
each node exactly once keyed by node identity (the id list has no duplicates,
also under diamond sharing), and places every node at a strictly later
position than each of its own operands. -/
theorem C3_topo_order_correct {n : ℕ} {pool : List Value} {root : Value}
    (htr : Trace n pool) (hroot : root ∈ pool) :
    (∀ s ∈ root.subterms, s ∈ topoOf root) ∧
    (∀ v ∈ topoOf root, v ∈ root.subterms) ∧
    ((topoOf root).map Value.id).Nodup ∧
    (∀ j (hj : j < (topoOf root).length),
      ∀ x ∈ ((topoOf root).get ⟨j, hj⟩).operands,
        ∃ k, ∃ hk : k < (topoOf root).length, k < j ∧
          (topoOf root).get ⟨k, hk⟩ = x) := by
  obtain ⟨hcompl, hnd, hsub, hcl, _⟩ := topoOf_spec (htr.wf hroot)
  exact ⟨hcompl, hsub, hnd, hcl.exists_earlier⟩

/-- C3 witness: the instantiation at the concrete two-node diamond
`root = a + a` with `a = leaf 3` built by an explicit trace. -/
theorem C3_topo_order_correct_witness :
    Trace 3 [Value.add (Value.newWithLabel 3 "" 1) (Value.newWithLabel 3 "" 1) 2,
      Value.newWithLabel 3 "" 1] ∧
    ((∀ s ∈ (Value.add (Value.newWithLabel 3 "" 1) (Value.newWithLabel 3 "" 1)
        2).subterms,
      s ∈ topoOf (Value.add (Value.newWithLabel 3 "" 1)
        (Value.newWithLabel 3 "" 1) 2)) ∧
    (∀ v ∈ topoOf (Value.add (Value.newWithLabel 3 "" 1)
        (Value.newWithLabel 3 "" 1) 2),
      v ∈ (Value.add (Value.newWithLabel 3 "" 1) (Value.newWithLabel 3 "" 1)
        2).subterms) ∧
    ((topoOf (Value.add (Value.newWithLabel 3 "" 1)
        (Value.newWithLabel 3 "" 1) 2)).map Value.id).Nodup ∧
    (∀ j (hj : j < (topoOf (Value.add (Value.newWithLabel 3 "" 1)
        (Value.newWithLabel 3 "" 1) 2)).length),
      ∀ x ∈ ((topoOf (Value.add (Value.newWithLabel 3 "" 1)
          (Value.newWithLabel 3 "" 1) 2)).get ⟨j, hj⟩).operands,
        ∃ k, ∃ hk : k < (topoOf (Value.add (Value.newWithLabel 3 "" 1)
            (Value.newWithLabel 3 "" 1) 2)).length, k < j ∧
          (topoOf (Value.add (Value.newWithLabel 3 "" 1)
            (Value.newWithLabel 3 "" 1) 2)).get ⟨k, hk⟩ = x)) := by
  have htr : Trace 3
      [Value.add (Value.newWithLabel 3 "" 1) (Value.newWithLabel 3 "" 1) 2,
       Value.newWithLabel 3 "" 1] :=
    Trace.addStep (Trace.leafStep 3 "" Trace.init) (by simp) (by simp)
  exact ⟨htr, C3_topo_order_correct htr (by simp)⟩

/-- C6: during the reverse iteration of `backward` over a graph built through
the public operations, every node drawn from the topological order already
has a gradient entry when it is processed (at every split of the reversed
order, running the loop over the processed prefix succeeds and leaves an
entry for the next node), so the unchecked `unwrap` never fails and
`backward` returns a store rather than panicking. -/
theorem C6_backward_lookup_total {n : ℕ} {pool : List Value} {root : Value}
    (htr : Trace n pool) (hroot : root ∈ pool) :
    (∀ A v B, (topoOf root).reverse = A ++ v :: B →
      ∃ gs2, backwardLoop (GradStore.new.insert root.id 1) A = some gs2 ∧
        (gs2 v.id).isSome) ∧
    (root.backward).isSome := by
  constructor
  · intro A v B hAB
    obtain ⟨gs2, hloop, hinv⟩ :=
      backwardLoop_prefix A (v :: B) (GradStore.new.insert root.id 1)
        (fun X w Y h => backward_entries htr hroot X w Y (hAB.trans h))
        (fun w hw => goodOp_topo htr hroot w (by rw [hAB]; simp [hw]))
    refine ⟨gs2, hloop, ?_⟩
    rcases hinv [] v B rfl with h | ⟨p, hp, _⟩
    · exact h
    · simp at hp
  · exact backward_isSome_aux htr hroot

/-- C6 witness: the instantiation at the concrete graph `root = a * a` with
`a = leaf 2` built by an explicit trace. -/
theorem C6_backward_lookup_total_witness :
    Trace 3 [Value.mul (Value.newWithLabel 2 "" 1) (Value.newWithLabel 2 "" 1) 2,
      Value.newWithLabel 2 "" 1] ∧
    ((∀ A v B, (topoOf (Value.mul (Value.newWithLabel 2 "" 1)
        (Value.newWithLabel 2 "" 1) 2)).reverse = A ++ v :: B →
      ∃ gs2, backwardLoop (GradStore.new.insert (Value.mul
          (Value.newWithLabel 2 "" 1) (Value.newWithLabel 2 "" 1) 2).id 1) A
          = some gs2 ∧ (gs2 v.id).isSome) ∧
    ((Value.mul (Value.newWithLabel 2 "" 1) (Value.newWithLabel 2 "" 1)
      2).backward).isSome) := by
  have htr : Trace 3
      [Value.mul (Value.newWithLabel 2 "" 1) (Value.newWithLabel 2 "" 1) 2,
       Value.newWithLabel 2 "" 1] :=
    Trace.mulStep (Trace.leafStep 2 "" Trace.init) (by simp) (by simp)
  exact ⟨htr, C6_backward_lookup_total htr (by simp)⟩

/-- C7: `sub` and `div` are compositions (`sub(a,b) = a + (b * (-1))`,
`div(a,b) = a * b^(-1)`, both holding definitionally), no node reachable in
any graph built through the public operations carries `Sub` or `Div`
provenance, and consequently every node of the topological order walked by
`backward` avoids the two `unreachable!()` arms. -/
theorem C7_sub_div_derived {n : ℕ} {pool : List Value} {root : Value}
    (htr : Trace n pool) (hroot : root ∈ pool) :
    (∀ a b i1 i2 i3, Value.sub a b i1 i2 i3 =
      Value.add a (Value.mul b (Value.fromFloat (-1) i1) i2) i3) ∧
    (∀ a b i1 i2 i3, Value.div a b i1 i2 i3 =
      Value.mul a (Value.pow b (Value.fromFloat (-1) i1) i2) i3) ∧
    (∀ s ∈ root.subterms, ∀ l r,
      s.op ≠ some (Op.Binary l r BinaryOp.Sub) ∧
      s.op ≠ some (Op.Binary l r BinaryOp.Div)) ∧
    (∀ v ∈ topoOf root, goodOp v.op) := by
  refine ⟨fun a b i1 i2 i3 => rfl, fun a b i1 i2 i3 => rfl,
    htr.noSubDiv hroot, ?_⟩
  intro v hv
  exact goodOp_topo htr hroot v (by simpa using hv)

/-- C7 witness: the instantiation at a concrete graph actually built with
`sub` (leaves 5 and 7; `sub` consumes three fresh ids). -/
theorem C7_sub_div_derived_witness :
    Trace 6 [Value.sub (Value.newWithLabel 5 "" 1) (Value.newWithLabel 7 "" 2)
        3 4 5,
      Value.neg (Value.newWithLabel 7 "" 2) 3 4,
      Value.fromFloat (-1) 3,
      Value.newWithLabel 7 "" 2, Value.newWithLabel 5 "" 1] ∧
    ((∀ s ∈ (Value.sub (Value.newWithLabel 5 "" 1) (Value.newWithLabel 7 "" 2)
        3 4 5).subterms, ∀ l r,
      s.op ≠ some (Op.Binary l r BinaryOp.Sub) ∧
      s.op ≠ some (Op.Binary l r BinaryOp.Div)) ∧
    (∀ v ∈ topoOf (Value.sub (Value.newWithLabel 5 "" 1)
        (Value.newWithLabel 7 "" 2) 3 4 5), goodOp v.op)) := by
  have htr : Trace 6
      [Value.sub (Value.newWithLabel 5 "" 1) (Value.newWithLabel 7 "" 2) 3 4 5,
       Value.neg (Value.newWithLabel 7 "" 2) 3 4,
       Value.fromFloat (-1) 3,
       Value.newWithLabel 7 "" 2, Value.newWithLabel 5 "" 1] :=
    Trace.addStep
      (Trace.mulStep (Trace.leafStep (-1) ""
          (Trace.leafStep 7 "" (Trace.leafStep 5 "" Trace.init)))
        (by simp) (by simp))
      (by simp) (by simp)
  have hc := C7_sub_div_derived htr (List.mem_cons_self _ _)
  exact ⟨htr, hc.2.2⟩

/-- C8: the gradient-store lookup of the spec (`GradStore.get`, modelled from
the spec since the source exposes no such method) returns `0.0` for any key
absent from the store and raises no error; a leaf whose id occurs nowhere in
the graph of the root does not appear in the reverse-pass order, ends up
absent from the store `backward` returns, and reports gradient `0.0`. -/
theorem C8_unused_leaf_absent_zero {n : ℕ} {pool : List Value} {root u : Value}
    (htr : Trace n pool) (hroot : root ∈ pool)
    (hunused : ∀ s ∈ root.subterms, s.id ≠ u.id) :
    (∀ gs : GradStore, ∀ j, gs j = none → gs.get j = 0) ∧
    u ∉ topoOf root ∧
    (∃ gs, root.backward = some gs ∧ gs u.id = none ∧ gs.get u.id = 0) := by
  obtain ⟨hcompl, hnd, hsub, hcl, _⟩ := topoOf_spec (htr.wf hroot)
  have hget0 : ∀ gs : GradStore, ∀ j, gs j = none → gs.get j = 0 := by
    intro gs j h
    simp [GradStore.get, h]
  refine ⟨hget0, ?_, ?_⟩
  · intro hu
    exact hunused u (hsub u hu) rfl
  · obtain ⟨gs, hgs⟩ :=
      Option.isSome_iff_exists.mp (backward_isSome_aux htr hroot)
    have hloop : backwardLoop (GradStore.new.insert root.id 1)
        (topoOf root).reverse = some gs := by
      rw [backward_def] at hgs
      exact hgs
    have hseed : (GradStore.new.insert root.id 1) u.id = none := by
      have hrne : root.id ≠ u.id :=
        hunused root (Value.self_mem_subterms root)
      simp [GradStore.insert, GradStore.new]
      intro hcontra
      exact absurd hcontra.symm hrne
    have hnone : gs u.id = none := by
      refine backwardLoop_none_preserved _ _ _ hloop u.id hseed ?_
      intro v hv x hx
      have hvsub : v ∈ root.subterms := hsub v (by simpa using hv)
      have hxsub : x ∈ root.subterms :=
        Value.mem_subterms_trans (Value.mem_subterms_of_operand hx) hvsub
      exact hunused x hxsub
    exact ⟨gs, hgs, hnone, hget0 gs u.id hnone⟩

/-- C9: every graph-builder operation allocates one new node (carrying the
supplied fresh id) whose provenance embeds the operand nodes themselves,
completely unchanged — in this pure rendering of the reference-counted,
immutable Rust nodes, an operation can be seen to leave every existing node
untouched because the operands reappear verbatim inside the result — and
`backward` is a function of the root alone that returns a gradient store
grown from the empty `GradStore::new()`, never writing derivative state into
any node (the node type has no gradient field at all, mirroring `Value_`). -/
theorem C9_builders_pure :
    (∀ a b i, (Value.add a b i).operands = [a, b] ∧ (Value.add a b i).id = i) ∧
    (∀ a b i, (Value.mul a b i).operands = [a, b] ∧ (Value.mul a b i).id = i) ∧
    (∀ a b i, (Value.pow a b i).operands = [a, b] ∧ (Value.pow a b i).id = i) ∧
    (∀ a i, (Value.exp a i).operands = [a] ∧ (Value.exp a i).id = i) ∧
    (∀ a i, (Value.tanh a i).operands = [a] ∧ (Value.tanh a i).id = i) ∧
    (∀ a i, (Value.relu a i).operands = [] ∧ (Value.relu a i).id = i) ∧
    (∀ a i1 i2, (Value.neg a i1 i2).operands = [a, Value.fromFloat (-1) i1]) ∧
    (∀ a b i1 i2 i3, (Value.sub a b i1 i2 i3).operands =
      [a, Value.neg b i1 i2]) ∧
    (∀ a b i1 i2 i3, (Value.div a b i1 i2 i3).operands =
      [a, Value.pow b (Value.fromFloat (-1) i1) i2]) ∧
    (∀ root, root.backward =
      backwardLoop (GradStore.new.insert root.id 1) (topoOf root).reverse) :=
  ⟨fun a b i => ⟨rfl, rfl⟩, fun a b i => ⟨rfl, rfl⟩, fun a b i => ⟨rfl, rfl⟩,
   fun a i => ⟨rfl, rfl⟩, fun a i => ⟨rfl, rfl⟩, fun a i => ⟨rfl, rfl⟩,
   fun a i1 i2 => rfl, fun a b i1 i2 i3 => rfl, fun a b i1 i2 i3 => rfl,
   fun root => rfl⟩

/-- C10: `Value::sqrt` is implemented as `self.mul(&self)`: it returns a node
whose value is the square of the operand (not its square root) and whose
provenance is `Binary(a, a, Mul)` with the operand on both sides. -/
theorem C10_sqrt_is_square (a : Value) (i : ℕ) :
    (Value.sqrt a i).data = a.data * a.data ∧
    (Value.sqrt a i).op = some (Op.Binary a a BinaryOp.Mul) :=
  ⟨rfl, rfl⟩

/-- C8 witness: the instantiation at `root = leaf 3` (id 1) with the unused
leaf `u = leaf 4` (id 2), both built in one trace. -/
theorem C8_unused_leaf_absent_zero_witness :
    Trace 3 [Value.newWithLabel 4 "" 2, Value.newWithLabel 3 "" 1] ∧
    (∀ s ∈ (Value.newWithLabel 3 "" 1).subterms,
      s.id ≠ (Value.newWithLabel 4 "" 2).id) ∧
    ((∀ gs : GradStore, ∀ j, gs j = none → gs.get j = 0) ∧
    Value.newWithLabel 4 "" 2 ∉ topoOf (Value.newWithLabel 3 "" 1) ∧
    (∃ gs, (Value.newWithLabel 3 "" 1).backward = some gs ∧
      gs (Value.newWithLabel 4 "" 2).id = none ∧
      gs.get (Value.newWithLabel 4 "" 2).id = 0)) := by
  have htr : Trace 3 [Value.newWithLabel 4 "" 2, Value.newWithLabel 3 "" 1] :=
    Trace.leafStep 4 "" (Trace.leafStep 3 "" Trace.init)
  have hroot : Value.newWithLabel 3 "" 1
      ∈ [Value.newWithLabel 4 "" 2, Value.newWithLabel 3 "" 1] := by simp
  have hun : ∀ s ∈ (Value.newWithLabel 3 "" 1).subterms,
      s.id ≠ (Value.newWithLabel 4 "" 2).id := by
    intro s hs
    simp only [Value.newWithLabel, Value.subterms, List.mem_singleton] at hs
    subst hs
    exact (by decide : (1 : ℕ) ≠ 2)
  exact ⟨htr, hun, C8_unused_leaf_absent_zero htr hroot hun⟩

/-- C1: the spec's backward rule for `exp(a)` adds `e^(a.value) * g` to `a`'s
gradient; the code instead computes `v.data.exp() * v_grad` where `v` is the
exp node itself, i.e. it adds `e^(e^(a.value)) * g`.  At the failing input
`a.value = 0`, a single `backward(exp(a))` stores gradient
`e^(e^0) = e ≈ 2.718` for `a`, whereas the claim (and the mathematical
derivative) demands `e^0 = 1`; the two differ.  This theorem evaluates the
code at that input. -/
theorem C1_exp_backward_double_exp :
    ∃ gs, (Value.exp (Value.mk 0 none "" 1) 2).backward = some gs ∧
      gs.get 1 = Real.exp (Real.exp 0) ∧
      Real.exp (Real.exp 0) ≠ Real.exp 0 := by
  have htopo : topoOf (Value.exp (Value.mk 0 none "" 1) 2)
      = [Value.mk 0 none "" 1, Value.exp (Value.mk 0 none "" 1) 2] := by
    show (buildTopo (Value.mk (Real.exp (Value.data (Value.mk 0 none "" 1)))
      (some (Op.Unary (Value.mk 0 none "" 1) UnaryOp.Exp)) "" 2)
        ([], [])).2 = _
    rw [buildTopo_un (by simp)]
    rw [buildTopo_leaf (by simp)]
    simp [Value.exp]
  refine ⟨(GradStore.new.insert 2 1).orInsertAdd 1
      (Real.exp (Real.exp 0) * 1), ?_, ?_, ?_⟩
  · rw [backward_def, htopo]
    simp only [List.reverse_cons, List.reverse_nil, List.nil_append,
      List.singleton_append]
    simp [backwardLoop, backwardStep, Value.id, Value.op, Value.exp,
      Value.data, GradStore.insert, GradStore.new, GradStore.orInsertAdd]
  · simp [GradStore.get, GradStore.orInsertAdd, GradStore.insert,
      GradStore.new]
  · intro h
    rw [Real.exp_eq_exp] at h
    exact Real.exp_ne_zero 0 h

/-- C2: the claim says `relu(a)` records provenance `Unary(a, Relu)` so that
the backward pass adds `(a.value > 0 ? 1 : 0) * g` to `a`.  The code computes
the value `max(0, a.value)` and allocates one node, but sets `op: None`
(label `"ReLU"`), recording no provenance at all; consequently
`backward(relu(a))` never visits `a`, whose id stays absent from the store
(gradient `0.0` instead of the claimed `1.0 * g`), and the `Relu` backward
arm in the source is dead code.  This theorem evaluates the code at the
failing input `a.value = 3`. -/
theorem C2_relu_no_provenance :
    (∀ a i, (Value.relu a i).op = none ∧ (Value.relu a i).data = max a.data 0 ∧
      (Value.relu a i).label = "ReLU") ∧
    (∃ gs, (Value.relu (Value.mk 3 none "" 1) 2).backward = some gs ∧
      gs 1 = none ∧ gs.get 1 = 0) := by
  refine ⟨fun a i => ⟨rfl, rfl, rfl⟩, ?_⟩
  have htopo : topoOf (Value.relu (Value.mk 3 none "" 1) 2)
      = [Value.relu (Value.mk 3 none "" 1) 2] := by
    show (buildTopo (Value.mk (max (Value.data (Value.mk 3 none "" 1)) 0)
      none "ReLU" 2) ([], [])).2 = _
    rw [buildTopo_leaf (by simp)]
    simp [Value.relu]
  refine ⟨GradStore.new.insert 2 1, ?_, ?_, ?_⟩
  · rw [backward_def, htopo]
    simp [backwardLoop, backwardStep, Value.id, Value.op, Value.relu,
      GradStore.insert, GradStore.new]
  · simp [GradStore.insert, GradStore.new]
  · simp [GradStore.get, GradStore.insert, GradStore.new]

/-- C4: for every leaf node `a` and fresh id `i`, building `c = a + a` (the
same node as both operands) and calling `backward(c)` yields a store whose
entry for `a`'s identity is exactly `2.0`. -/
theorem C4_add_self_grad_two (da : ℝ) (la : String) (ia i : ℕ)
    (hne : i ≠ ia) :
    ∃ gs, (Value.add (Value.mk da none la ia) (Value.mk da none la ia)
        i).backward = some gs ∧ gs ia = some 2 ∧ gs.get ia = 2 := by
  have hne2 : ia ≠ i := Ne.symm hne
  have hinner : buildTopo (Value.mk da none la ia) ([i], [])
      = ([ia, i], [Value.mk da none la ia]) := by
    rw [buildTopo_leaf (by simpa using hne2)]
    simp
  have htopo : topoOf (Value.add (Value.mk da none la ia)
      (Value.mk da none la ia) i)
      = [Value.mk da none la ia,
         Value.add (Value.mk da none la ia) (Value.mk da none la ia) i] := by
    show (buildTopo (Value.mk (Value.data (Value.mk da none la ia) +
      Value.data (Value.mk da none la ia))
      (some (Op.Binary (Value.mk da none la ia) (Value.mk da none la ia)
        BinaryOp.Add)) "" i) ([], [])).2 = _
    rw [buildTopo_bin (by simp), hinner, buildTopo_visited (by simp)]
    simp [Value.add]
  refine ⟨(((GradStore.new.insert i 1).orInsertAdd ia 1).orInsertAdd ia 1),
    ?_, ?_, ?_⟩
  · rw [backward_def, htopo]
    simp only [List.reverse_cons, List.reverse_nil, List.nil_append,
      List.singleton_append]
    simp [backwardLoop, backwardStep, Value.id, Value.op, Value.add,
      Value.data, GradStore.insert, GradStore.new, GradStore.orInsertAdd]
  · simp [GradStore.orInsertAdd, GradStore.insert, GradStore.new, hne2]
    norm_num
  · simp [GradStore.get, GradStore.orInsertAdd, GradStore.insert,
      GradStore.new, hne2]
    norm_num

/-- C4 witness: the theorem applied at a concrete leaf (value 3, id 1) and
fresh sum id 2. -/
theorem C4_add_self_grad_two_witness :
    ((2 : ℕ) ≠ 1) ∧
    (∃ gs, (Value.add (Value.mk 3 none "" 1) (Value.mk 3 none "" 1)
        2).backward = some gs ∧ gs 1 = some 2 ∧ gs.get 1 = 2) :=
  ⟨by decide, C4_add_self_grad_two 3 "" 1 2 (by decide)⟩

/-- C5: for every pair of leaf nodes `a`, `b` with distinct identities and a
fresh id `i`, building `c = a * b` and calling `backward(c)` (root seeded
with `1.0`) yields gradient `b.value` for `a` and `a.value` for `b`. -/
theorem C5_mul_product_rule (da db : ℝ) (la lb : String) (ia ib i : ℕ)
    (hab : ia ≠ ib) (hia : i ≠ ia) (hib : i ≠ ib) :
    ∃ gs, (Value.mul (Value.mk da none la ia) (Value.mk db none lb ib)
        i).backward = some gs ∧ gs.get ia = db ∧ gs.get ib = da := by
  have hia2 : ia ≠ i := Ne.symm hia
  have hib2 : ib ≠ i := Ne.symm hib
  have hba : ib ≠ ia := Ne.symm hab
  have hinner1 : buildTopo (Value.mk da none la ia) ([i], [])
      = ([ia, i], [Value.mk da none la ia]) := by
    rw [buildTopo_leaf (by simpa using hia2)]
    simp
  have hinner2 : buildTopo (Value.mk db none lb ib)
      ([ia, i], [Value.mk da none la ia])
      = ([ib, ia, i], [Value.mk da none la ia, Value.mk db none lb ib]) := by
    rw [buildTopo_leaf (by simp [hba, hib2])]
    simp
  have htopo : topoOf (Value.mul (Value.mk da none la ia)
      (Value.mk db none lb ib) i)
      = [Value.mk da none la ia, Value.mk db none lb ib,
         Value.mul (Value.mk da none la ia) (Value.mk db none lb ib) i] := by
    show (buildTopo (Value.mk (Value.data (Value.mk da none la ia) *
      Value.data (Value.mk db none lb ib))
      (some (Op.Binary (Value.mk da none la ia) (Value.mk db none lb ib)
        BinaryOp.Mul)) "" i) ([], [])).2 = _
    rw [buildTopo_bin (by simp), hinner1, hinner2]
    simp [Value.mul]
  refine ⟨(((GradStore.new.insert i 1).orInsertAdd ia (db * 1)).orInsertAdd
      ib (da * 1)), ?_, ?_, ?_⟩
  · rw [backward_def, htopo]
    simp only [List.reverse_cons, List.reverse_nil, List.nil_append,
      List.singleton_append]
    simp [backwardLoop, backwardStep, Value.id, Value.op, Value.mul,
      Value.data, GradStore.insert, GradStore.new, GradStore.orInsertAdd,
      hab, hba, hia2, hib2]
  · simp [GradStore.get, GradStore.orInsertAdd, GradStore.insert,
      GradStore.new, hab, hia2, hba]
  · simp [GradStore.get, GradStore.orInsertAdd, GradStore.insert,
      GradStore.new, hib2, hba]

/-- C5 witness: the theorem applied at leaves `a = 3` (id 1), `b = 4` (id 2)
and fresh product id 3. -/
theorem C5_mul_product_rule_witness :
    ((1 : ℕ) ≠ 2) ∧ ((3 : ℕ) ≠ 1) ∧ ((3 : ℕ) ≠ 2) ∧
    (∃ gs, (Value.mul (Value.mk 3 none "" 1) (Value.mk 4 none "" 2)
        3).backward = some gs ∧ gs.get 1 = 4 ∧ gs.get 2 = 3) :=
  ⟨by decide, by decide, by decide,
    C5_mul_product_rule 3 4 "" "" 1 2 3 (by decide) (by decide) (by decide)⟩

end Micrograd
